import Mathlib

/-!
Verification development for the Animated Scenes integration
(`custom_components/animated_scenes/image.py`).

The renderer `create_color_block_image` and the normalizer
`_async_build_colors_from_rgb_dict` are embedded below.  Numeric weights
are modelled as rationals; Python `int(...)` (truncation toward zero) is
modelled by `pyInt`.  The Pillow call `ImageDraw.rectangle([x0, y0, x1, y1])`
fills the bounding box inclusive of BOTH endpoints, so a drawn block with
start `x` and width `w` covers the pixel columns `x .. x + w` inclusive
(clipped to the canvas); `inFill` encodes exactly that.
-/

namespace AnimatedScenes

/-- Opaque tag from the `const` module of the integration: the RGB-UI color
selector mode.  Its concrete value is irrelevant to every claim; it is
only compared for equality. -/
def COLOR_SELECTOR_RGB_UI : String := "rgb_ui"

/-- Opaque tag from the `const` module of the integration: the RGB color-type
tag stamped on normalized entries.  Only compared for equality. -/
def CONF_COLOR_RGB : String := "rgb"

/-- An RGB color triple, as produced by `tuple(color_info["color"])`. -/
abbrev Color := ℤ × ℤ × ℤ

/-- A well-formed scene-color entry: `{"color": (r,g,b), "weight": w}`. -/
structure ColorEntry where
  color : Color
  weight : ℚ
deriving DecidableEq, Repr

/-- Canvas width from `width, height = 500, 100` (image.py line 152). -/
def canvasWidth : ℤ := 500

/-- Canvas height from `width, height = 500, 100` (image.py line 152). -/
def canvasHeight : ℤ := 100

/-- Python `int(q)`: truncation toward zero. -/
def pyInt (q : ℚ) : ℤ := if 0 ≤ q then ⌊q⌋ else ⌈q⌉

/-- The weight sum `sum(color_info["weight"] for color_info in scene_colors)`. -/
def sumW (cs : List ColorEntry) : ℚ := (cs.map ColorEntry.weight).sum

/-- The guarded total `total_weight = sum(...) or 1` (image.py line 153): a zero sum is
falsy in Python, so it is replaced by `1`. -/
def totalWeight (cs : List ColorEntry) : ℚ :=
  if sumW cs = 0 then 1 else sumW cs

/-- The width `block_width = int((color_info["weight"] / total_weight) * width)`
(image.py line 161). -/
def blockW (T w : ℚ) : ℤ := pyInt (w / T * 500)

/-- One drawn block: start column `x`, width `w`, fill color `c`,
recording the call `draw.rectangle([x, 0, x + w, 100], fill=c)`. -/
structure Block where
  x : ℤ
  w : ℤ
  c : Color
deriving DecidableEq, Repr

/-- The drawing loop (image.py lines 159-167): walk the entries with a
cursor starting at `x`; compute each block width; skip widths `≤ 0`
(`continue`); otherwise record the drawn rectangle and advance the
cursor by the block width. -/
def drawBlocks (T : ℚ) : List ColorEntry → ℤ → List Block
  | [], _ => []
  | e :: rest, x =>
    let bw := blockW T e.weight
    if bw ≤ 0 then drawBlocks T rest x
    else ⟨x, bw, e.color⟩ :: drawBlocks T rest (x + bw)

/-- The blocks drawn by `create_color_block_image` for a scene-color
list: total weight from the list, cursor starting at 0. -/
def drawnBlocks (cs : List ColorEntry) : List Block :=
  drawBlocks (totalWeight cs) cs 0

/-- The final cursor value `current_x` after the drawing loop, starting
from cursor `x`. -/
def cursorAfter (T : ℚ) : List ColorEntry → ℤ → ℤ
  | [], x => x
  | e :: rest, x =>
    let bw := blockW T e.weight
    if bw ≤ 0 then cursorAfter T rest x
    else cursorAfter T rest (x + bw)

/-- Membership of pixel `(x, y)` in the region filled by the call
`draw.rectangle([b.x, 0, b.x + b.w, 100], fill=b.c)`: Pillow fills the
bounding box inclusive of both endpoints. -/
abbrev inFill (b : Block) (x y : ℤ) : Prop :=
  b.x ≤ x ∧ x ≤ b.x + b.w ∧ 0 ≤ y ∧ y ≤ canvasHeight

/-- Background fill: `PILImage.new("RGB", (width, height))` initializes every pixel to
black. -/
def bgColor : Color := (0, 0, 0)

/-- The color of canvas pixel `(x, y)` after replaying the drawn
rectangles in order: each later fill overwrites the pixel when the pixel
lies in its region. -/
def pixelAt (bs : List Block) (x y : ℤ) : Color :=
  bs.foldl (fun acc b => if inFill b x y then b.c else acc) bgColor

/-- Sum of the widths of the blocks actually drawn for a scene-color
list. -/
def drawnWidthSum (cs : List ColorEntry) : ℤ :=
  ((drawnBlocks cs).map Block.w).sum

end AnimatedScenes

namespace AnimatedScenes

/-! ### Raw entries and the full stateful renderer

`create_color_block_image` receives dynamically typed dicts.  A raw
`color` field of an entry is `none` when `tuple(color_info["color"])` does not
yield an RGB fill acceptable to Pillow (a `TypeError`/`ValueError` is
raised at the `draw.rectangle` call), and its `weight` is `none` when
the weight is not numeric (a `TypeError` is raised inside the `sum`).
Entity state (`self._cached_image`, `self._attr_image_last_updated`) is
written only on lines 176-177, after every fallible step, so a raised
error leaves the state unchanged; the `Prod` result below returns the
unchanged state together with `some` error message in that case. -/

structure RawEntry where
  color : Option Color
  weight : Option ℚ
  ctype : Option String
deriving DecidableEq, Repr

/-- The Home Assistant `Image(content=..., content_type=...)` wrapper.
The PNG encoder is a pure function of the pixel content, which in turn
is fully determined by the drawn blocks; the encoded byte stream is
therefore modelled by the block list that determines it. -/
structure HAImage where
  content : List Block
  contentType : String
deriving DecidableEq, Repr

/-- The mutable state of the entity: `self._cached_image` and
`self._attr_image_last_updated` (time modelled as a counter). -/
structure EntityState where
  cachedImage : Option HAImage
  lastUpdated : ℕ
deriving DecidableEq, Repr

/-- The weight sum over raw entries: raises
(`none`) when any weight is not numeric. -/
def sumWeightsOpt : List RawEntry → Option ℚ
  | [] => some 0
  | e :: rest =>
    match e.weight, sumWeightsOpt rest with
    | some w, some s => some (w + s)
    | _, _ => none

/-- The drawing loop over raw entries (image.py lines 159-167): the
weight is consumed to compute the block width, widths `≤ 0` are skipped
before the color is ever read, and `tuple(color_info["color"])` /
`draw.rectangle(..., fill=color)` raise (`none`) on an unresolvable
color of a block that is actually drawn.  (A `none` weight also yields
`none`; that branch is unreachable when the weight sum succeeded.) -/
def drawBlocksRaw (T : ℚ) : List RawEntry → ℤ → Option (List Block)
  | [], _ => some []
  | e :: rest, x =>
    match e.weight with
    | none => none
    | some w =>
      let bw := blockW T w
      if bw ≤ 0 then drawBlocksRaw T rest x
      else
        match e.color with
        | none => none
        | some c => (drawBlocksRaw T rest (x + bw)).map (fun bs => ⟨x, bw, c⟩ :: bs)

/-- The renderer `create_color_block_image` (image.py lines 128-177): sum the
weights (`or 1` guard), draw the blocks, encode, and only then replace
`self._cached_image` and refresh `self._attr_image_last_updated`.  On a
raised error the state is returned unchanged alongside the error. -/
def createColorBlockImage (now : ℕ) (st : EntityState) (sceneColors : List RawEntry) :
    EntityState × Option String :=
  match sumWeightsOpt sceneColors with
  | none => (st, some "TypeError: weight is not numeric")
  | some s =>
    let T : ℚ := if s = 0 then 1 else s
    match drawBlocksRaw T sceneColors 0 with
    | none => (st, some "ValueError: color is not resolvable to an RGB fill")
    | some bs =>
      ({ cachedImage := some { content := bs, contentType := "image/png" },
         lastUpdated := now }, none)

/-- Injection of a well-formed entry into the raw entry type. -/
def toRaw (e : ColorEntry) : RawEntry :=
  { color := some e.color, weight := some e.weight, ctype := none }

/-! ### Configuration model

The raw integration configuration, as read by `async_added_to_hass`
and `_async_build_colors_from_rgb_dict`.  A Python dict is modelled as
an association list in its insertion (= iteration) order; an absent
key is `none`. -/

structure PureConfig where
  name : String
  colorSelectorMode : Option String
  colorRgbDict : Option (List (String × RawEntry))
  colors : Option (List RawEntry)

/-- The normalizer `_async_build_colors_from_rgb_dict` (image.py lines
114-126), value level: take the values of the RGB dict in iteration order, discarding
the keys, and stamp each entry with the RGB color-type tag
(`color.update({CONF_COLOR_TYPE: CONF_COLOR_RGB})`). -/
def asyncBuildColorsFromRgbDict (d : List (String × RawEntry)) : List RawEntry :=
  d.map (fun p => { p.2 with ctype := some CONF_COLOR_RGB })

/-- The hook `async_added_to_hass` (image.py lines 96-112): when the color
selector mode is the RGB UI, rebuild `CONF_COLORS` from the RGB dict
(defaulting to `{}`); then render `self._config.get(CONF_COLORS, [])`.
Returns the updated config together with the render result. -/
def asyncAddedToHass (now : ℕ) (st : EntityState) (cfg : PureConfig) :
    PureConfig × (EntityState × Option String) :=
  let cfg2 := if cfg.colorSelectorMode = some COLOR_SELECTOR_RGB_UI then
      { cfg with colors := some (asyncBuildColorsFromRgbDict (cfg.colorRgbDict.getD [])) }
    else cfg
  (cfg2, createColorBlockImage now st (cfg2.colors.getD []))

/-! ### Heap model for the deep-copy aliasing claim

`_async_build_colors_from_rgb_dict` mutates dict objects in place
(`color.update(...)`), so object identity matters for the claim that
the stored configuration is never aliased.  A Python heap of entry
dicts is modelled as a finite map from addresses to entry values with
an allocation bound `next`; `copy.deepcopy` allocates fresh addresses
for the copied entries. -/

structure EntryObj where
  color : List ℤ
  weight : ℚ
  ctype : Option String
deriving DecidableEq, Repr

def defaultEntryObj : EntryObj := { color := [], weight := 0, ctype := none }

structure Heap where
  mem : ℕ → Option EntryObj
  next : ℕ

/-- In-place mutation of the object at address `a`
(e.g. `color.update(...)` or any later mutation of a produced entry). -/
def updateH (h : Heap) (a : ℕ) (v : EntryObj) : Heap :=
  { mem := fun z => if z = a then some v else h.mem z, next := h.next }

/-- Allocate a list of fresh objects (the copies made by
`copy.deepcopy`), returning the new heap and their addresses. -/
def allocList (h : Heap) : List EntryObj → Heap × List ℕ
  | [] => (h, [])
  | v :: rest =>
    let a := h.next
    let h1 : Heap := { mem := fun z => if z = a then some v else h.mem z, next := a + 1 }
    let res := allocList h1 rest
    (res.1, a :: res.2)

/-- The tagging step `color.update(...)` on one object: set the color
type field to the RGB tag. -/
def tagRgb (e : EntryObj) : EntryObj := { e with ctype := some CONF_COLOR_RGB }

/-- The tagging loop `for color in color_list: color.update(...)`. -/
def tagAll (h : Heap) (addrs : List ℕ) : Heap :=
  addrs.foldl
    (fun hh a =>
      match hh.mem a with
      | some v => updateH hh a (tagRgb v)
      | none => hh)
    h

/-- The normalizer `_async_build_colors_from_rgb_dict` (image.py lines
114-126), heap level: `copy.deepcopy` the dict (allocating fresh copies of its entry
objects), take the values in iteration order, and tag each copy in
place.  Returns the final heap and the addresses stored into
`CONF_COLORS`. -/
def asyncBuildColorsFromRgbDictHeap (h : Heap) (d : List (String × ℕ)) :
    Heap × List ℕ :=
  let res := allocList h (d.map (fun p => (h.mem p.2).getD defaultEntryObj))
  (tagAll res.1 res.2, res.2)

/-! ### Concrete inputs used by witnesses and counterexamples -/

def exC1 : List ColorEntry := [⟨(1, 2, 3), 0⟩, ⟨(4, 5, 6), 0⟩]

def exC2 : List ColorEntry := [⟨(255, 0, 0), 1⟩, ⟨(0, 0, 255), 1⟩]

def exC2single : ColorEntry := ⟨(9, 9, 9), 3⟩

def exC3 : List ColorEntry := [⟨(255, 0, 0), 1⟩, ⟨(0, 0, 255), 1⟩]

def exC4pre : List ColorEntry := [⟨(1, 1, 1), 3⟩]

def exC4e : ColorEntry := ⟨(2, 2, 2), 0⟩

def exC4post : List ColorEntry := [⟨(3, 3, 3), 1⟩]

def exC5bad : List RawEntry :=
  [⟨none, some 0, none⟩, ⟨some (255, 0, 0), some 1, none⟩]

def exC5badW : List RawEntry := [⟨some (1, 2, 3), none, none⟩]

def exC5badC : List RawEntry := [⟨none, some 1, none⟩]

def exC5state : EntityState :=
  { cachedImage := some { content := [⟨0, 7, (9, 9, 9)⟩], contentType := "image/png" },
    lastUpdated := 3 }

def exC6heap : Heap :=
  { mem := fun z => if z = 0 then some { color := [255, 0, 0], weight := 1, ctype := none }
      else none,
    next := 1 }

def exC6dict : List (String × ℕ) := [("a", 0)]

def exC6obj : EntryObj := { color := [0, 255, 0], weight := 2, ctype := none }

def exC7dict : List (String × RawEntry) :=
  [("a", ⟨some (255, 0, 0), some 1, none⟩), ("b", ⟨some (0, 255, 0), some 1, none⟩)]

def exC7dictKeys : List (String × RawEntry) :=
  [("x", ⟨some (255, 0, 0), some 1, none⟩), ("y", ⟨some (0, 255, 0), some 1, none⟩)]

def exC8cfg : PureConfig :=
  { name := "Scene", colorSelectorMode := some COLOR_SELECTOR_RGB_UI,
    colorRgbDict := none, colors := none }

def exC9 : List ColorEntry := [⟨(10, 20, 30), 2⟩, ⟨(40, 50, 60), 2⟩]

def exC10 : List ColorEntry := [⟨(255, 0, 0), 1⟩, ⟨(0, 0, 255), 1⟩]

/-! ### Helper lemmas about the drawing loop -/

theorem drawBlocks_width_sum (T : ℚ) (l : List ColorEntry) :
    ∀ x : ℤ, ((drawBlocks T l x).map Block.w).sum
      = (l.map (fun e => if blockW T e.weight ≤ 0 then 0 else blockW T e.weight)).sum := by
  induction l with
  | nil => intro x; simp [drawBlocks]
  | cons e rest ih =>
    intro x
    by_cases h : blockW T e.weight ≤ 0
    · simp [drawBlocks, h, ih x]
    · simp [drawBlocks, h, ih (x + blockW T e.weight)]

theorem drawBlocks_mem_bounds (T : ℚ) (l : List ColorEntry) :
    ∀ x : ℤ, ∀ b ∈ drawBlocks T l x, x ≤ b.x ∧ 0 < b.w := by
  induction l with
  | nil => intro x b hb; simp [drawBlocks] at hb
  | cons e rest ih =>
    intro x b hb
    by_cases h : blockW T e.weight ≤ 0
    · simp only [drawBlocks, if_pos h] at hb
      exact ih x b hb
    · simp only [drawBlocks, if_neg h, List.mem_cons] at hb
      rcases hb with hb | hb
      · subst hb
        refine ⟨le_refl x, ?_⟩
        show (0 : ℤ) < blockW T e.weight
        omega
      · have hrec := ih (x + blockW T e.weight) b hb
        exact ⟨by omega, hrec.2⟩

theorem drawBlocks_pairwise (T : ℚ) (l : List ColorEntry) :
    ∀ x : ℤ, (drawBlocks T l x).Pairwise (fun a b => a.x + a.w ≤ b.x) := by
  induction l with
  | nil => intro x; simp [drawBlocks]
  | cons e rest ih =>
    intro x
    by_cases h : blockW T e.weight ≤ 0
    · simp only [drawBlocks, if_pos h]
      exact ih x
    · simp only [drawBlocks, if_neg h]
      refine List.Pairwise.cons ?_ (ih _)
      intro b hb
      exact (drawBlocks_mem_bounds T rest _ b hb).1

theorem drawBlocks_nil_of_skip (T : ℚ) (l : List ColorEntry)
    (hz : ∀ e ∈ l, blockW T e.weight ≤ 0) : ∀ x : ℤ, drawBlocks T l x = [] := by
  induction l with
  | nil => intro x; simp [drawBlocks]
  | cons e rest ih =>
    intro x
    have he := hz e (List.mem_cons_self e rest)
    simp only [drawBlocks, if_pos he]
    exact ih (fun p hp => hz p (List.mem_cons_of_mem e hp)) x

theorem drawBlocks_skip (T : ℚ) (e : ColorEntry) (hbw : blockW T e.weight ≤ 0) :
    ∀ (l1 l2 : List ColorEntry) (x : ℤ),
      drawBlocks T (l1 ++ e :: l2) x = drawBlocks T (l1 ++ l2) x := by
  intro l1
  induction l1 with
  | nil => intro l2 x; simp [drawBlocks, hbw]
  | cons p rest ih =>
    intro l2 x
    by_cases h : blockW T p.weight ≤ 0 <;>
      simp [drawBlocks, h, ih]

theorem cursorAfter_eq (T : ℚ) (l : List ColorEntry) :
    ∀ x : ℤ, cursorAfter T l x = x + ((drawBlocks T l x).map Block.w).sum := by
  induction l with
  | nil => intro x; simp [cursorAfter, drawBlocks]
  | cons e rest ih =>
    intro x
    by_cases h : blockW T e.weight ≤ 0
    · simp [cursorAfter, drawBlocks, h, ih x]
    · simp only [cursorAfter, drawBlocks, if_neg h, List.map_cons, List.sum_cons]
      rw [ih (x + blockW T e.weight)]
      ring

theorem cursorAfter_le (T : ℚ) (l : List ColorEntry) :
    ∀ x : ℤ, x ≤ cursorAfter T l x := by
  induction l with
  | nil => intro x; simp [cursorAfter]
  | cons e rest ih =>
    intro x
    by_cases h : blockW T e.weight ≤ 0
    · simp only [cursorAfter, if_pos h]
      exact ih x
    · simp only [cursorAfter, if_neg h]
      have := ih (x + blockW T e.weight)
      omega

theorem cursorAfter_append (T : ℚ) (l1 l2 : List ColorEntry) :
    ∀ x : ℤ, cursorAfter T (l1 ++ l2) x = cursorAfter T l2 (cursorAfter T l1 x) := by
  induction l1 with
  | nil => intro x; simp [cursorAfter]
  | cons e rest ih =>
    intro x
    by_cases h : blockW T e.weight ≤ 0 <;>
      simp [cursorAfter, h, ih]

/-! ### Helper lemmas about rational sums -/

theorem floor_list_sum_le (l : List ℚ) :
    (((l.map (fun q => ⌊q⌋)).sum : ℤ) : ℚ) ≤ l.sum := by
  induction l with
  | nil => simp
  | cons q rest ih =>
    simp only [List.map_cons, List.sum_cons]
    push_cast at ih ⊢
    exact add_le_add (Int.floor_le q) ih

theorem floor_list_sum_ge (l : List ℚ) :
    l.sum - l.length ≤ (((l.map (fun q => ⌊q⌋)).sum : ℤ) : ℚ) := by
  induction l with
  | nil => simp
  | cons q rest ih =>
    simp only [List.map_cons, List.sum_cons, List.length_cons]
    push_cast at ih ⊢
    have h1 : q - 1 ≤ (⌊q⌋ : ℚ) := le_of_lt (Int.sub_one_lt_floor q)
    linarith

theorem scale_list_sum (l : List ℚ) (W : ℚ) :
    (l.map (fun w => w / W * 500)).sum = l.sum / W * 500 := by
  induction l with
  | nil => simp
  | cons q rest ih =>
    simp only [List.map_cons, List.sum_cons, ih]
    ring

/-! ### Helper lemmas about the raw renderer -/

theorem sumWeightsOpt_toRaw (cs : List ColorEntry) :
    sumWeightsOpt (cs.map toRaw) = some (sumW cs) := by
  induction cs with
  | nil => simp [sumWeightsOpt, sumW]
  | cons e rest ih =>
    simp [sumWeightsOpt, toRaw, ih, sumW]

theorem drawBlocksRaw_toRaw (T : ℚ) (cs : List ColorEntry) :
    ∀ x : ℤ, drawBlocksRaw T (cs.map toRaw) x = some (drawBlocks T cs x) := by
  induction cs with
  | nil => intro x; simp [drawBlocksRaw, drawBlocks]
  | cons e rest ih =>
    intro x
    by_cases h : blockW T e.weight ≤ 0 <;>
      simp [drawBlocksRaw, drawBlocks, toRaw, h, ih]

theorem sumWeightsOpt_none {l : List RawEntry} {e : RawEntry}
    (he : e ∈ l) (hw : e.weight = none) : sumWeightsOpt l = none := by
  induction l with
  | nil => cases he
  | cons p rest ih =>
    rcases List.mem_cons.mp he with rfl | hmem
    · simp [sumWeightsOpt, hw]
    · rw [sumWeightsOpt]
      rw [ih hmem]
      cases p.weight <;> rfl

theorem drawBlocksRaw_none {l : List RawEntry} {e : RawEntry} {w : ℚ} (T : ℚ)
    (he : e ∈ l) (hc : e.color = none) (hw : e.weight = some w)
    (hbw : 0 < blockW T w) : ∀ x : ℤ, drawBlocksRaw T l x = none := by
  induction l with
  | nil => cases he
  | cons p rest ih =>
    intro x
    rcases List.mem_cons.mp he with rfl | hmem
    · rw [drawBlocksRaw, hw]
      simp only [if_neg (by omega : ¬ blockW T w ≤ 0)]
      rw [hc]
    · rw [drawBlocksRaw]
      cases hpw : p.weight with
      | none => rfl
      | some wp =>
        by_cases h : blockW T wp ≤ 0
        · simp only [if_pos h]
          exact ih hmem x
        · simp only [if_neg h]
          cases hpc : p.color with
          | none => rfl
          | some c => rw [ih hmem (x + blockW T wp)]; rfl

theorem createColorBlockImage_toRaw (now : ℕ) (st : EntityState) (cs : List ColorEntry) :
    createColorBlockImage now st (cs.map toRaw)
      = ({ cachedImage := some { content := drawnBlocks cs, contentType := "image/png" },
           lastUpdated := now }, none) := by
  have h1 := sumWeightsOpt_toRaw cs
  have h2 := drawBlocksRaw_toRaw (totalWeight cs) cs 0
  simp only [createColorBlockImage, h1]
  rw [show (if sumW cs = 0 then (1 : ℚ) else sumW cs) = totalWeight cs from rfl, h2]
  rfl

theorem createColorBlockImage_state_on_error (now : ℕ) (st : EntityState)
    (l : List RawEntry) (herr : ((createColorBlockImage now st l).2).isSome = true) :
    (createColorBlockImage now st l).1 = st := by
  rcases hsum : sumWeightsOpt l with _ | s
  · simp [createColorBlockImage, hsum]
  · rcases hdb : drawBlocksRaw (if s = 0 then 1 else s) l 0 with _ | bs
    · simp [createColorBlockImage, hsum, hdb]
    · simp [createColorBlockImage, hsum, hdb] at herr

/-! ### Helper lemmas about the heap model -/

theorem allocList_next_mono (vs : List EntryObj) :
    ∀ h : Heap, h.next ≤ (allocList h vs).1.next := by
  induction vs with
  | nil => intro h; simp [allocList]
  | cons v rest ih =>
    intro h
    have := ih { mem := fun z => if z = h.next then some v else h.mem z, next := h.next + 1 }
    simp only [allocList] at this ⊢
    omega

theorem allocList_addrs_ge (vs : List EntryObj) :
    ∀ (h : Heap) (a : ℕ), a ∈ (allocList h vs).2 → h.next ≤ a := by
  induction vs with
  | nil => intro h a ha; simp [allocList] at ha
  | cons v rest ih =>
    intro h a ha
    simp only [allocList, List.mem_cons] at ha
    rcases ha with rfl | ha
    · exact le_refl _
    · have := ih { mem := fun z => if z = h.next then some v else h.mem z, next := h.next + 1 } a ha
      simp only at this
      omega

theorem allocList_mem_lt (vs : List EntryObj) :
    ∀ (h : Heap) (z : ℕ), z < h.next → (allocList h vs).1.mem z = h.mem z := by
  induction vs with
  | nil => intro h z _; rfl
  | cons v rest ih =>
    intro h z hz
    simp only [allocList]
    rw [ih { mem := fun w => if w = h.next then some v else h.mem w, next := h.next + 1 } z
      (by simp; omega)]
    simp only []
    rw [if_neg (by omega)]

theorem tagAll_mem_notin (addrs : List ℕ) :
    ∀ (h : Heap) (z : ℕ), z ∉ addrs → (tagAll h addrs).mem z = h.mem z := by
  induction addrs with
  | nil => intro h z _; rfl
  | cons a rest ih =>
    intro h z hz
    have hza : z ≠ a := fun hh => hz (hh ▸ List.mem_cons_self a rest)
    have hzr : z ∉ rest := fun hh => hz (List.mem_cons_of_mem a hh)
    simp only [tagAll, List.foldl_cons]
    rcases hma : h.mem a with _ | v
    · exact ih h z hzr
    · show (tagAll (updateH h a (tagRgb v)) rest).mem z = h.mem z
      rw [ih _ z hzr]
      simp [updateH, hza]

/-! ### Claim theorems -/

/-- C1: for every scene-color list whose weights are all zero
(including the empty list), the zero total weight is replaced by 1
(`sum(...) or 1`), every computed block width is 0, no entry is drawn,
and every pixel of the produced image is the background fill.  The
divisor is the constant 1, so no division fault can occur. -/
theorem c1_all_zero_weights_renders_background (cs : List ColorEntry)
    (hz : ∀ e ∈ cs, e.weight = 0) :
    totalWeight cs = 1 ∧
    (∀ e ∈ cs, blockW (totalWeight cs) e.weight = 0) ∧
    drawnBlocks cs = [] ∧
    (∀ x y : ℤ, pixelAt (drawnBlocks cs) x y = bgColor) := by
  have hs : sumW cs = 0 := by
    show (cs.map ColorEntry.weight).sum = 0
    apply List.sum_eq_zero
    intro q hq
    rcases List.mem_map.mp hq with ⟨e, he, rfl⟩
    exact hz e he
  have hT : totalWeight cs = 1 := by simp [totalWeight, hs]
  have hbw : ∀ e ∈ cs, blockW (totalWeight cs) e.weight = 0 := by
    intro e he
    rw [hT, hz e he]
    norm_num [blockW, pyInt]
  have hdb : drawnBlocks cs = [] := by
    unfold drawnBlocks
    exact drawBlocks_nil_of_skip (totalWeight cs) cs (fun e he => le_of_eq (hbw e he)) 0
  refine ⟨hT, hbw, hdb, ?_⟩
  intro x y
  rw [hdb]
  rfl

/-- C1 witness: the concrete two-entry all-zero-weight list. -/
theorem c1_witness :
    (∀ e ∈ exC1, e.weight = 0) ∧
    (totalWeight exC1 = 1 ∧
      (∀ e ∈ exC1, blockW (totalWeight exC1) e.weight = 0) ∧
      drawnBlocks exC1 = [] ∧
      (∀ x y : ℤ, pixelAt (drawnBlocks exC1) x y = bgColor)) := by
  have hz : ∀ e ∈ exC1, e.weight = 0 := by
    intro e he
    simp only [exC1, List.mem_cons, List.not_mem_nil, or_false] at he
    rcases he with rfl | rfl <;> rfl
  exact ⟨hz, c1_all_zero_weights_renders_background exC1 hz⟩

/-- C4: an entry whose computed block width is `≤ 0` is skipped
entirely: the drawn blocks (hence all filled pixels) and the final
cursor are exactly those obtained when the drawing step of the entry is
removed from the loop (with the same total weight). -/
theorem c4_nonpositive_width_entry_skipped (l1 l2 : List ColorEntry) (e : ColorEntry)
    (hbw : blockW (totalWeight (l1 ++ e :: l2)) e.weight ≤ 0) :
    drawnBlocks (l1 ++ e :: l2)
      = drawBlocks (totalWeight (l1 ++ e :: l2)) (l1 ++ l2) 0 ∧
    (∀ x y : ℤ, pixelAt (drawnBlocks (l1 ++ e :: l2)) x y
      = pixelAt (drawBlocks (totalWeight (l1 ++ e :: l2)) (l1 ++ l2) 0) x y) ∧
    cursorAfter (totalWeight (l1 ++ e :: l2)) (l1 ++ e :: l2) 0
      = cursorAfter (totalWeight (l1 ++ e :: l2)) (l1 ++ l2) 0 := by
  have h1 : drawnBlocks (l1 ++ e :: l2)
      = drawBlocks (totalWeight (l1 ++ e :: l2)) (l1 ++ l2) 0 :=
    drawBlocks_skip _ e hbw l1 l2 0
  refine ⟨h1, fun x y => by rw [h1], ?_⟩
  rw [cursorAfter_eq, cursorAfter_eq]
  rw [show drawBlocks (totalWeight (l1 ++ e :: l2)) (l1 ++ e :: l2) 0
        = drawnBlocks (l1 ++ e :: l2) from rfl, h1]

/-- C4 witness: weight-0 entry between two drawn entries. -/
theorem c4_witness :
    blockW (totalWeight (exC4pre ++ exC4e :: exC4post)) exC4e.weight ≤ 0 ∧
    drawnBlocks (exC4pre ++ exC4e :: exC4post)
      = drawBlocks (totalWeight (exC4pre ++ exC4e :: exC4post)) (exC4pre ++ exC4post) 0 := by
  have hbw : blockW (totalWeight (exC4pre ++ exC4e :: exC4post)) exC4e.weight ≤ 0 := by
    norm_num [exC4pre, exC4e, exC4post, totalWeight, sumW, blockW, pyInt]
  exact ⟨hbw, (c4_nonpositive_width_entry_skipped exC4pre exC4post exC4e hbw).1⟩

/-- C10: for arbitrary (even negative) weights, every drawn block has a
start `≥ 0` and a strictly positive width, drawn starts strictly
increase left to right (the cursor never moves leftward), and the
cursor after any prefix of the loop is `≤` the final cursor. -/
theorem c10_cursor_monotone (cs l1 l2 : List ColorEntry) (hsplit : cs = l1 ++ l2)
    (b : Block) (hb : b ∈ drawnBlocks cs) :
    (0 ≤ b.x ∧ 0 < b.w) ∧
    (drawnBlocks cs).Pairwise (fun a c => a.x < c.x) ∧
    cursorAfter (totalWeight cs) l1 0 ≤ cursorAfter (totalWeight cs) cs 0 := by
  refine ⟨drawBlocks_mem_bounds (totalWeight cs) cs 0 b hb, ?_, ?_⟩
  · have hp : (drawnBlocks cs).Pairwise (fun a c => a.x + a.w ≤ c.x) :=
      drawBlocks_pairwise (totalWeight cs) cs 0
    refine hp.imp_of_mem ?_
    intro a c ha _ h
    have haw := (drawBlocks_mem_bounds (totalWeight cs) cs 0 a ha).2
    omega
  · rw [hsplit, cursorAfter_append]
    exact cursorAfter_le _ _ _

/-- C10 witness: two unit-weight entries, split after the first. -/
theorem c10_witness :
    exC10 = [⟨(255, 0, 0), 1⟩] ++ [⟨(0, 0, 255), 1⟩] ∧
    (⟨0, 250, (255, 0, 0)⟩ : Block) ∈ drawnBlocks exC10 ∧
    ((0 : ℤ) ≤ (⟨0, 250, (255, 0, 0)⟩ : Block).x ∧
      (0 : ℤ) < (⟨0, 250, (255, 0, 0)⟩ : Block).w) ∧
    (drawnBlocks exC10).Pairwise (fun a c => a.x < c.x) := by
  have hsplit : exC10 = [⟨(255, 0, 0), 1⟩] ++ [⟨(0, 0, 255), 1⟩] := rfl
  have hblocks : drawnBlocks exC10 = [⟨0, 250, (255, 0, 0)⟩, ⟨250, 250, (0, 0, 255)⟩] := by
    norm_num [exC10, drawnBlocks, drawBlocks, blockW, pyInt, totalWeight, sumW]
  have hb : (⟨0, 250, (255, 0, 0)⟩ : Block) ∈ drawnBlocks exC10 := by
    rw [hblocks]; exact List.mem_cons_self _ _
  have hmain := c10_cursor_monotone exC10 [⟨(255, 0, 0), 1⟩] [⟨(0, 0, 255), 1⟩] hsplit
    ⟨0, 250, (255, 0, 0)⟩ hb
  exact ⟨hsplit, hb, hmain.1, hmain.2.1⟩

/-- C3 counterclaim: the regions filled by `draw.rectangle` are NOT the
half-open column ranges `[cursor, cursor + blockWidth)` and are NOT
pairwise disjoint.  For two unit-weight entries the first fill covers
columns 0..250 and the second covers 250..500 (Pillow rectangles are
inclusive of both endpoints), so pixel (250, 0) is filled by both
entries, and the later block overwrites it with its own color. -/
theorem c3_counterexample :
    drawnBlocks exC3 = [⟨0, 250, (255, 0, 0)⟩, ⟨250, 250, (0, 0, 255)⟩] ∧
    inFill ⟨0, 250, (255, 0, 0)⟩ 250 0 ∧
    inFill ⟨250, 250, (0, 0, 255)⟩ 250 0 ∧
    pixelAt (drawnBlocks exC3) 250 0 = (0, 0, 255) := by
  have hblocks : drawnBlocks exC3 = [⟨0, 250, (255, 0, 0)⟩, ⟨250, 250, (0, 0, 255)⟩] := by
    norm_num [exC3, drawnBlocks, drawBlocks, blockW, pyInt, totalWeight, sumW]
  refine ⟨hblocks, ⟨by norm_num, by norm_num, le_refl 0, by norm_num [canvasHeight]⟩,
    ⟨le_refl 250, by norm_num, le_refl 0, by norm_num [canvasHeight]⟩, ?_⟩
  rw [hblocks]
  norm_num [pixelAt, inFill, canvasHeight, bgColor]

/-- C3 (amended): each drawn entry fills the column range from its
start to its start plus its width INCLUSIVE at full canvas height
(Pillow rectangles include both endpoints), so the fills of two
distinct drawn entries are not always disjoint: they can share exactly
one pixel column, the right edge of the earlier block, which must equal the
start of the later block (the later fill then overwrites that column). -/
theorem c3_amended_overlap_only_at_boundary (cs : List ColorEntry) (i j : ℕ)
    (hij : i < j) (hi : i < (drawnBlocks cs).length) (hj : j < (drawnBlocks cs).length)
    (x y : ℤ)
    (hfi : inFill ((drawnBlocks cs).get ⟨i, hi⟩) x y)
    (hfj : inFill ((drawnBlocks cs).get ⟨j, hj⟩) x y) :
    x = ((drawnBlocks cs).get ⟨j, hj⟩).x ∧
    ((drawnBlocks cs).get ⟨j, hj⟩).x
      = ((drawnBlocks cs).get ⟨i, hi⟩).x + ((drawnBlocks cs).get ⟨i, hi⟩).w := by
  have hp : (drawnBlocks cs).Pairwise (fun a c => a.x + a.w ≤ c.x) :=
    drawBlocks_pairwise (totalWeight cs) cs 0
  have hR := List.pairwise_iff_get.mp hp ⟨i, hi⟩ ⟨j, hj⟩ hij
  obtain ⟨h1, h2, -, -⟩ := hfi
  obtain ⟨h3, h4, -, -⟩ := hfj
  constructor <;> omega

/-- C3 witness for the amended claim: at the concrete two-entry list the
shared pixel column of the two drawn blocks is exactly the second
block, which equals the right edge of the first block. -/
theorem c3_amended_witness :
    ((drawnBlocks exC3).get ⟨1, by
        norm_num [exC3, drawnBlocks, drawBlocks, blockW, pyInt, totalWeight, sumW]⟩).x
      = ((drawnBlocks exC3).get ⟨0, by
        norm_num [exC3, drawnBlocks, drawBlocks, blockW, pyInt, totalWeight, sumW]⟩).x
        + ((drawnBlocks exC3).get ⟨0, by
        norm_num [exC3, drawnBlocks, drawBlocks, blockW, pyInt, totalWeight, sumW]⟩).w := by
  have hblocks : drawnBlocks exC3 = [⟨0, 250, (255, 0, 0)⟩, ⟨250, 250, (0, 0, 255)⟩] := by
    norm_num [exC3, drawnBlocks, drawBlocks, blockW, pyInt, totalWeight, sumW]
  have h0 : (0 : ℕ) < (drawnBlocks exC3).length := by rw [hblocks]; norm_num
  have h1 : (1 : ℕ) < (drawnBlocks exC3).length := by rw [hblocks]; norm_num
  have hg0 : (drawnBlocks exC3).get ⟨0, h0⟩ = ⟨0, 250, (255, 0, 0)⟩ := by
    rw [List.get_of_eq hblocks]
    rfl
  have hg1 : (drawnBlocks exC3).get ⟨1, h1⟩ = ⟨250, 250, (0, 0, 255)⟩ := by
    rw [List.get_of_eq hblocks]
    rfl
  have hfi : inFill ((drawnBlocks exC3).get ⟨0, h0⟩) 250 0 := by
    rw [hg0]
    exact ⟨by norm_num, by norm_num, le_refl 0, by norm_num [canvasHeight]⟩
  have hfj : inFill ((drawnBlocks exC3).get ⟨1, h1⟩) 250 0 := by
    rw [hg1]
    exact ⟨le_refl 250, by norm_num, le_refl 0, by norm_num [canvasHeight]⟩
  exact (c3_amended_overlap_only_at_boundary exC3 0 1 (by norm_num) h0 h1 250 0 hfi hfj).2

/-- C2: for non-negative weights with positive sum, the total width of
the drawn blocks is at most the canvas width 500 and at least
`500 - n` (floor-rounding loses less than one unit per entry); and a
single-entry list with positive weight draws one block of the full
canvas width (exactly 500, hence within 1 unit). -/
theorem c2_drawn_width_bounds (cs : List ColorEntry)
    (hw : ∀ e ∈ cs, 0 ≤ e.weight) (hW : 0 < sumW cs)
    (e : ColorEntry) (he : 0 < e.weight) :
    (drawnWidthSum cs ≤ 500 ∧ 500 - (cs.length : ℤ) ≤ drawnWidthSum cs) ∧
    drawBlocks (totalWeight [e]) [e] 0 = [⟨0, 500, e.color⟩] := by
  constructor
  · have hW0 : sumW cs ≠ 0 := ne_of_gt hW
    have hT : totalWeight cs = sumW cs := by simp [totalWeight, hW0]
    have h1 : drawnWidthSum cs
        = (cs.map (fun e => if blockW (totalWeight cs) e.weight ≤ 0 then 0
            else blockW (totalWeight cs) e.weight)).sum :=
      drawBlocks_width_sum (totalWeight cs) cs 0
    have h2 : ∀ p ∈ cs, (if blockW (totalWeight cs) p.weight ≤ 0 then 0
          else blockW (totalWeight cs) p.weight) = ⌊p.weight / sumW cs * 500⌋ := by
      intro p hp
      have hq : 0 ≤ p.weight / sumW cs * 500 :=
        mul_nonneg (div_nonneg (hw p hp) (le_of_lt hW)) (by norm_num)
      have hb : blockW (totalWeight cs) p.weight = ⌊p.weight / sumW cs * 500⌋ := by
        rw [hT]
        unfold blockW pyInt
        rw [if_pos hq]
      rw [hb]
      have h0 : 0 ≤ ⌊p.weight / sumW cs * 500⌋ := Int.floor_nonneg.mpr hq
      by_cases hle : ⌊p.weight / sumW cs * 500⌋ ≤ 0
      · rw [if_pos hle]
        omega
      · rw [if_neg hle]
    rw [h1, List.map_congr_left h2]
    have hmm : cs.map (fun p => ⌊p.weight / sumW cs * 500⌋)
        = ((cs.map ColorEntry.weight).map (fun w => w / sumW cs * 500)).map
            (fun q => ⌊q⌋) := by
      simp [List.map_map, Function.comp]
    rw [hmm]
    have hsum : ((cs.map ColorEntry.weight).map (fun w => w / sumW cs * 500)).sum = 500 := by
      rw [scale_list_sum]
      rw [show (cs.map ColorEntry.weight).sum = sumW cs from rfl]
      field_simp
    have hup := floor_list_sum_le ((cs.map ColorEntry.weight).map (fun w => w / sumW cs * 500))
    have hlo := floor_list_sum_ge ((cs.map ColorEntry.weight).map (fun w => w / sumW cs * 500))
    rw [hsum] at hup hlo
    have hlen : ((cs.map ColorEntry.weight).map (fun w => w / sumW cs * 500)).length
        = cs.length := by simp
    rw [hlen] at hlo
    constructor
    · exact_mod_cast hup
    · exact_mod_cast hlo
  · have hw0 : e.weight ≠ 0 := ne_of_gt he
    have hT : totalWeight [e] = e.weight := by
      simp [totalWeight, sumW, hw0]
    have hb : blockW e.weight e.weight = 500 := by
      rw [blockW, div_self hw0, one_mul]
      norm_num [pyInt]
    rw [hT]
    rw [drawBlocks]
    simp only [hb]
    norm_num [drawBlocks]

/-- C2 witness: two unit-weight entries and a single positive-weight
entry. -/
theorem c2_witness :
    (∀ p ∈ exC2, 0 ≤ p.weight) ∧ 0 < sumW exC2 ∧ 0 < exC2single.weight ∧
    (drawnWidthSum exC2 ≤ 500 ∧ 500 - (exC2.length : ℤ) ≤ drawnWidthSum exC2) ∧
    drawBlocks (totalWeight [exC2single]) [exC2single] 0 = [⟨0, 500, exC2single.color⟩] := by
  have hw : ∀ p ∈ exC2, 0 ≤ p.weight := by
    intro p hp
    simp only [exC2, List.mem_cons, List.not_mem_nil, or_false] at hp
    rcases hp with rfl | rfl <;> norm_num
  have hW : 0 < sumW exC2 := by norm_num [exC2, sumW]
  have he : 0 < exC2single.weight := by norm_num [exC2single]
  have h := c2_drawn_width_bounds exC2 hw hW exC2single he
  exact ⟨hw, hW, he, h.1, h.2⟩

/-- C5 counterclaim: a list CONTAINING a malformed entry does not
always make the render fail.  Here the color of the first entry is
unresolvable but its weight is 0, so its block width is 0 and the entry
is skipped before its color is ever read: the render succeeds and
caches an image with the single block of the remaining entry. -/
theorem c5_counterexample :
    (∃ e ∈ exC5bad, e.color = none) ∧
    (createColorBlockImage 1 exC5state exC5bad).2 = none ∧
    (createColorBlockImage 1 exC5state exC5bad).1.cachedImage
      = some { content := [⟨0, 500, (255, 0, 0)⟩], contentType := "image/png" } := by
  refine ⟨⟨⟨none, some 0, none⟩, List.mem_cons_self _ _, rfl⟩, ?_⟩
  have hsum : sumWeightsOpt exC5bad = some 1 := by
    norm_num [exC5bad, sumWeightsOpt]
  have hdb : drawBlocksRaw ((1 : ℚ)) exC5bad 0 = some [⟨0, 500, (255, 0, 0)⟩] := by
    norm_num [exC5bad, drawBlocksRaw, blockW, pyInt]
  constructor <;>
    · simp only [createColorBlockImage, hsum]
      norm_num [hdb]

/-- C5 (amended): a malformed entry makes the render fail exactly when
its malformed field is consumed: a non-numeric weight always fails (the
weight sum reads every weight); an unresolvable color fails only when
the computed block width of that entry is positive, since entries with width
`≤ 0` are skipped before the color is read.  On every failure the
previously cached image and last-updated timestamp are unchanged; the
cache is replaced only after a complete image is built. -/
theorem c5_amended_failure_semantics (scene : List RawEntry) (st : EntityState) (now : ℕ)
    (e : RawEntry) (he : e ∈ scene) :
    (e.weight = none →
      (createColorBlockImage now st scene).1 = st ∧
      ((createColorBlockImage now st scene).2).isSome = true) ∧
    (∀ s w : ℚ, sumWeightsOpt scene = some s → e.color = none → e.weight = some w →
      0 < blockW (if s = 0 then 1 else s) w →
      (createColorBlockImage now st scene).1 = st ∧
      ((createColorBlockImage now st scene).2).isSome = true) ∧
    (((createColorBlockImage now st scene).2).isSome = true →
      (createColorBlockImage now st scene).1 = st) := by
  refine ⟨?_, ?_, createColorBlockImage_state_on_error now st scene⟩
  · intro hw
    have hsum := sumWeightsOpt_none he hw
    simp [createColorBlockImage, hsum]
  · intro s w hsum hc hw hbw
    have hdb := drawBlocksRaw_none (if s = 0 then 1 else s) he hc hw hbw 0
    simp [createColorBlockImage, hsum, hdb]

/-- C5 witness: a non-numeric weight fails with the state unchanged,
and an unresolvable color on a drawn (positive-width) entry fails with
the state unchanged. -/
theorem c5_amended_witness :
    ((createColorBlockImage 9 exC5state exC5badW).1 = exC5state ∧
      ((createColorBlockImage 9 exC5state exC5badW).2).isSome = true) ∧
    ((createColorBlockImage 9 exC5state exC5badC).1 = exC5state ∧
      ((createColorBlockImage 9 exC5state exC5badC).2).isSome = true) := by
  constructor
  · exact (c5_amended_failure_semantics exC5badW exC5state 9 ⟨some (1, 2, 3), none, none⟩
      (List.mem_cons_self _ _)).1 rfl
  · refine (c5_amended_failure_semantics exC5badC exC5state 9 ⟨none, some 1, none⟩
      (List.mem_cons_self _ _)).2.1 1 1 ?_ rfl rfl ?_
    · norm_num [exC5badC, sumWeightsOpt]
    · norm_num [blockW, pyInt]

/-- C9: rendering is deterministic in image content: for any
well-formed canonical color list, two render calls (from any prior
states, at any times) succeed and cache the same encoded content with
the same content type, while each call sets the last-updated timestamp
to its own call time, so distinct call times give distinct
timestamps. -/
theorem c9_deterministic_content_fresh_timestamp (cs : List ColorEntry)
    (st1 st2 : EntityState) (t1 t2 : ℕ) (hne : t1 ≠ t2) :
    (createColorBlockImage t1 st1 (cs.map toRaw)).2 = none ∧
    (createColorBlockImage t2 st2 (cs.map toRaw)).2 = none ∧
    (createColorBlockImage t1 st1 (cs.map toRaw)).1.cachedImage
      = some { content := drawnBlocks cs, contentType := "image/png" } ∧
    (createColorBlockImage t1 st1 (cs.map toRaw)).1.cachedImage
      = (createColorBlockImage t2 st2 (cs.map toRaw)).1.cachedImage ∧
    (createColorBlockImage t1 st1 (cs.map toRaw)).1.lastUpdated = t1 ∧
    (createColorBlockImage t2 st2 (cs.map toRaw)).1.lastUpdated = t2 ∧
    (createColorBlockImage t1 st1 (cs.map toRaw)).1.lastUpdated
      ≠ (createColorBlockImage t2 st2 (cs.map toRaw)).1.lastUpdated := by
  rw [createColorBlockImage_toRaw, createColorBlockImage_toRaw]
  exact ⟨rfl, rfl, rfl, rfl, rfl, rfl, hne⟩

/-- C9 witness: the same two-entry list rendered at times 1 and 2 from
different prior states. -/
theorem c9_witness :
    (createColorBlockImage 1 exC5state (exC9.map toRaw)).1.cachedImage
      = (createColorBlockImage 2 { cachedImage := none, lastUpdated := 0 }
          (exC9.map toRaw)).1.cachedImage ∧
    (createColorBlockImage 1 exC5state (exC9.map toRaw)).1.lastUpdated
      ≠ (createColorBlockImage 2 { cachedImage := none, lastUpdated := 0 }
          (exC9.map toRaw)).1.lastUpdated := by
  have h := c9_deterministic_content_fresh_timestamp exC9 exC5state
    { cachedImage := none, lastUpdated := 0 } 1 2 (by norm_num)
  exact ⟨h.2.2.2.1, h.2.2.2.2.2.2⟩

/-- C6: normalization deep-copies the entry objects before tagging
them: for every mapping-shaped configuration (dict entries living at
valid heap addresses), the build leaves the object stored at every dict
address unchanged (the tagging mutates only the copies), every produced
address is distinct from every dict address (no aliasing), and mutating
the object at any produced address still leaves every dict entry
unchanged. -/
theorem c6_deepcopy_no_aliasing (h : Heap) (d : List (String × ℕ))
    (hbound : ∀ p ∈ d, p.2 < h.next)
    (p : String × ℕ) (hp : p ∈ d)
    (a : ℕ) (ha : a ∈ (asyncBuildColorsFromRgbDictHeap h d).2) (v : EntryObj) :
    (asyncBuildColorsFromRgbDictHeap h d).1.mem p.2 = h.mem p.2 ∧
    a ≠ p.2 ∧
    (updateH (asyncBuildColorsFromRgbDictHeap h d).1 a v).mem p.2 = h.mem p.2 := by
  have hplt : p.2 < h.next := hbound p hp
  have ha2 : a ∈ (allocList h (d.map (fun q => (h.mem q.2).getD defaultEntryObj))).2 := ha
  have hage : h.next ≤ a :=
    allocList_addrs_ge (d.map (fun q => (h.mem q.2).getD defaultEntryObj)) h a ha2
  have hnotin : p.2 ∉ (allocList h (d.map (fun q => (h.mem q.2).getD defaultEntryObj))).2 := by
    intro hmem
    have := allocList_addrs_ge (d.map (fun q => (h.mem q.2).getD defaultEntryObj)) h p.2 hmem
    omega
  have hmem1 : (asyncBuildColorsFromRgbDictHeap h d).1.mem p.2 = h.mem p.2 := by
    show (tagAll (allocList h (d.map (fun q => (h.mem q.2).getD defaultEntryObj))).1
        (allocList h (d.map (fun q => (h.mem q.2).getD defaultEntryObj))).2).mem p.2
      = h.mem p.2
    rw [tagAll_mem_notin _ _ p.2 hnotin]
    exact allocList_mem_lt _ h p.2 hplt
  refine ⟨hmem1, by omega, ?_⟩
  rw [show (updateH (asyncBuildColorsFromRgbDictHeap h d).1 a v).mem p.2
        = (asyncBuildColorsFromRgbDictHeap h d).1.mem p.2 from by
      simp [updateH]
      intro hh
      omega]
  exact hmem1

/-- C6 witness: a one-entry dict at address 0; the build produces the
fresh address 1, and mutating it leaves the dict entry intact. -/
theorem c6_witness :
    (∀ p ∈ exC6dict, p.2 < exC6heap.next) ∧
    (1 : ℕ) ∈ (asyncBuildColorsFromRgbDictHeap exC6heap exC6dict).2 ∧
    ((asyncBuildColorsFromRgbDictHeap exC6heap exC6dict).1.mem 0 = exC6heap.mem 0 ∧
      (1 : ℕ) ≠ 0 ∧
      (updateH (asyncBuildColorsFromRgbDictHeap exC6heap exC6dict).1 1 exC6obj).mem 0
        = exC6heap.mem 0) := by
  have hbound : ∀ p ∈ exC6dict, p.2 < exC6heap.next := by
    intro p hp
    simp only [exC6dict, List.mem_cons, List.not_mem_nil, or_false] at hp
    subst hp
    norm_num [exC6heap]
  have ha : (1 : ℕ) ∈ (asyncBuildColorsFromRgbDictHeap exC6heap exC6dict).2 := by
    show (1 : ℕ) ∈ (allocList exC6heap _).2
    simp [allocList, exC6heap]
  exact ⟨hbound, ha, c6_deepcopy_no_aliasing exC6heap exC6dict hbound ("a", 0)
    (List.mem_cons_self _ _) 1 ha exC6obj⟩

/-- C7: normalization of a mapping-shaped configuration discards the
keys and yields the mapping values in iteration order, each stamped
with the RGB-origin type tag: the output has one entry per key, the
i-th output entry is the i-th value tagged with `CONF_COLOR_RGB`, and
two mappings with the same values (in order) but different keys
normalize identically. -/
theorem c7_rgb_dict_values_tagged (d : List (String × RawEntry)) :
    (asyncBuildColorsFromRgbDict d).length = d.length ∧
    (∀ i : ℕ, (asyncBuildColorsFromRgbDict d)[i]?
      = (d[i]?).map (fun p => { p.2 with ctype := some CONF_COLOR_RGB })) ∧
    (∀ d2 : List (String × RawEntry), d.map Prod.snd = d2.map Prod.snd →
      asyncBuildColorsFromRgbDict d = asyncBuildColorsFromRgbDict d2) := by
  have key : ∀ dd : List (String × RawEntry), asyncBuildColorsFromRgbDict dd
      = (dd.map Prod.snd).map (fun q => { q with ctype := some CONF_COLOR_RGB }) := by
    intro dd
    rw [asyncBuildColorsFromRgbDict, List.map_map]
    rfl
  refine ⟨by simp [asyncBuildColorsFromRgbDict], ?_, ?_⟩
  · intro i
    simp [asyncBuildColorsFromRgbDict, List.getElem?_map]
  · intro d2 hvals
    rw [key d, key d2, hvals]

/-- C7 witness: the two-key example mapping of the specification yields the two
values in iteration order tagged RGB, and the same values under
different keys normalize to the same list. -/
theorem c7_witness :
    (asyncBuildColorsFromRgbDict exC7dict).length = exC7dict.length ∧
    (asyncBuildColorsFromRgbDict exC7dict)[0]?
      = some ⟨some (255, 0, 0), some 1, some CONF_COLOR_RGB⟩ ∧
    (asyncBuildColorsFromRgbDict exC7dict)[1]?
      = some ⟨some (0, 255, 0), some 1, some CONF_COLOR_RGB⟩ ∧
    asyncBuildColorsFromRgbDict exC7dict = asyncBuildColorsFromRgbDict exC7dictKeys := by
  have h := c7_rgb_dict_values_tagged exC7dict
  refine ⟨h.1, ?_, ?_, h.2.2 exC7dictKeys rfl⟩
  · rw [h.2.1 0]
    rfl
  · rw [h.2.1 1]
    rfl

/-- C8: when no color configuration is present (no canonical color
list and no RGB dict), `async_added_to_hass` passes the empty list to
the renderer: the normalized color list is empty, the render raises no
error, and the cached image holds no colored blocks. -/
theorem c8_absent_config_renders_empty (cfg : PureConfig) (st : EntityState) (now : ℕ)
    (h1 : cfg.colors = none) (h2 : cfg.colorRgbDict = none) :
    (asyncAddedToHass now st cfg).1.colors.getD [] = [] ∧
    (asyncAddedToHass now st cfg).2.2 = none ∧
    (asyncAddedToHass now st cfg).2.1.cachedImage
      = some { content := [], contentType := "image/png" } ∧
    (asyncAddedToHass now st cfg).2.1.lastUpdated = now := by
  by_cases hm : cfg.colorSelectorMode = some COLOR_SELECTOR_RGB_UI <;>
    simp [asyncAddedToHass, hm, h1, h2, asyncBuildColorsFromRgbDict,
      createColorBlockImage, sumWeightsOpt, drawBlocksRaw]

/-- C8 witness: RGB-UI mode with neither color shape present. -/
theorem c8_witness :
    exC8cfg.colors = none ∧ exC8cfg.colorRgbDict = none ∧
    (asyncAddedToHass 4 exC5state exC8cfg).1.colors.getD [] = [] ∧
    (asyncAddedToHass 4 exC5state exC8cfg).2.2 = none ∧
    (asyncAddedToHass 4 exC5state exC8cfg).2.1.cachedImage
      = some { content := [], contentType := "image/png" } := by
  have h := c8_absent_config_renders_empty exC8cfg exC5state 4 rfl rfl
  exact ⟨rfl, rfl, h.1, h.2.1, h.2.2.1⟩

end AnimatedScenes
